import Mathlib

/-!
Verification development for the `deck-optim` Monte-Carlo deck simulator.

Each Rust item referenced by a claim is shallowly embedded as a Lean
definition.  Machine integers (`u8`, `u32`, `usize`) are modelled as `Nat`:
the Rust code uses checked arithmetic (`checked_sub`) or panicking addition,
never wrapping arithmetic, so `Nat` is the faithful value domain; where a
width bound is semantically relevant (parsing a decimal into `u8`) the bound
`≤ 255` appears explicitly.
-/

namespace DeckOptim

/-- The six mana types, in declared order (src/src/game/mana/type.rs). -/
inductive ManaType where
  | White
  | Blue
  | Black
  | Red
  | Green
  | Colorless
deriving DecidableEq, Repr

/-- `ManaType::all` (src/src/game/mana/type.rs lines 12-22). -/
def ManaType.all : List ManaType :=
  [ManaType.White, ManaType.Blue, ManaType.Black, ManaType.Red, ManaType.Green,
   ManaType.Colorless]

/-- `ManaPool` (src/src/game/mana/pool.rs lines 10-18): six `u8` pip counts. -/
@[ext]
structure ManaPool where
  white : Nat
  blue : Nat
  black : Nat
  red : Nat
  green : Nat
  colorless : Nat
deriving DecidableEq, Repr

/-- `ManaPool::empty` (pool.rs lines 35-44). -/
def ManaPool.empty : ManaPool :=
  { white := 0, blue := 0, black := 0, red := 0, green := 0, colorless := 0 }

/-- `ManaPool::white` (pool.rs lines 54-59). -/
def ManaPool.ofWhite (n : Nat) : ManaPool := { ManaPool.empty with white := n }

/-- `ManaPool::blue` (pool.rs lines 61-66). -/
def ManaPool.ofBlue (n : Nat) : ManaPool := { ManaPool.empty with blue := n }

/-- `ManaPool::black` (pool.rs lines 68-73). -/
def ManaPool.ofBlack (n : Nat) : ManaPool := { ManaPool.empty with black := n }

/-- `ManaPool::red` (pool.rs lines 75-80). -/
def ManaPool.ofRed (n : Nat) : ManaPool := { ManaPool.empty with red := n }

/-- `ManaPool::green` (pool.rs lines 82-87). -/
def ManaPool.ofGreen (n : Nat) : ManaPool := { ManaPool.empty with green := n }

/-- `ManaPool::colorless` (pool.rs lines 89-94).  NOTE: the Rust source binds
the parameter to the field `green` (`pub fn colorless(green: u8) -> Self {
Self { green, ..Default::default() } }`), so this constructor fills the
`green` component, not the `colorless` one.  The embedding reproduces the
source faithfully. -/
def ManaPool.ofColorless (n : Nat) : ManaPool := { ManaPool.empty with green := n }

/-- `ManaPool::of` (pool.rs lines 98-108). -/
def ManaPool.of (manaType : ManaType) (amount : Nat) : ManaPool :=
  match manaType with
  | ManaType.White => ManaPool.ofWhite amount
  | ManaType.Blue => ManaPool.ofBlue amount
  | ManaType.Black => ManaPool.ofBlack amount
  | ManaType.Red => ManaPool.ofRed amount
  | ManaType.Green => ManaPool.ofGreen amount
  | ManaType.Colorless => ManaPool.ofColorless amount

/-- `Index<ManaType> for ManaPool` (pool.rs lines 241-255). -/
def ManaPool.get (p : ManaPool) (t : ManaType) : Nat :=
  match t with
  | ManaType.White => p.white
  | ManaType.Blue => p.blue
  | ManaType.Black => p.black
  | ManaType.Red => p.red
  | ManaType.Green => p.green
  | ManaType.Colorless => p.colorless

/-- `IndexMut<ManaType> for ManaPool` (pool.rs lines 256-268): write one
component. -/
def ManaPool.set (p : ManaPool) (t : ManaType) (v : Nat) : ManaPool :=
  match t with
  | ManaType.White => { p with white := v }
  | ManaType.Blue => { p with blue := v }
  | ManaType.Black => { p with black := v }
  | ManaType.Red => { p with red := v }
  | ManaType.Green => { p with green := v }
  | ManaType.Colorless => { p with colorless := v }

/-- `ManaPool::mana_value` (pool.rs lines 135-138): the sum of all pips. -/
def ManaPool.manaValue (p : ManaPool) : Nat :=
  p.white + p.blue + p.black + p.red + p.green + p.colorless

/-- `ManaPool::remove_pip` (pool.rs lines 141-145): `new[mana_type] -= 1`.
Only ever called on a positive component (see `mana_types`). -/
def ManaPool.removePip (p : ManaPool) (t : ManaType) : ManaPool :=
  p.set t (p.get t - 1)

/-- `ManaPool::add_pip` (pool.rs lines 147-151). -/
def ManaPool.addPip (p : ManaPool) (t : ManaType) : ManaPool :=
  p.set t (p.get t + 1)

/-- `ManaPool::mana_types` (pool.rs lines 166-171): the types with a positive
count, in declared order. -/
def ManaPool.manaTypes (p : ManaPool) : List ManaType :=
  ManaType.all.filter (fun mt => 0 < p.get mt)

/-- `impl Add for ManaPool` (pool.rs lines 270-283): componentwise sum. -/
def ManaPool.add (p q : ManaPool) : ManaPool :=
  { white := p.white + q.white
    blue := p.blue + q.blue
    black := p.black + q.black
    red := p.red + q.red
    green := p.green + q.green
    colorless := p.colorless + q.colorless }

/-- `u8::checked_sub`: `None` on underflow. -/
def checkedSub (a b : Nat) : Option Nat :=
  if b ≤ a then some (a - b) else none

/-- `impl Sub for ManaPool` (pool.rs lines 285-299): componentwise checked
subtraction, `None` if any component underflows. -/
def ManaPool.sub (p q : ManaPool) : Option ManaPool :=
  (checkedSub p.white q.white).bind fun white =>
  (checkedSub p.blue q.blue).bind fun blue =>
  (checkedSub p.black q.black).bind fun black =>
  (checkedSub p.red q.red).bind fun red =>
  (checkedSub p.green q.green).bind fun green =>
  (checkedSub p.colorless q.colorless).bind fun colorless =>
  some { white := white, blue := blue, black := black, red := red,
         green := green, colorless := colorless }

/-- Componentwise order on mana pools ("`Q ≤ P` componentwise"). -/
def ManaPool.le (p q : ManaPool) : Prop :=
  p.white ≤ q.white ∧ p.blue ≤ q.blue ∧ p.black ≤ q.black ∧
  p.red ≤ q.red ∧ p.green ≤ q.green ∧ p.colorless ≤ q.colorless

instance : DecidablePred fun pq : ManaPool × ManaPool => pq.1.le pq.2 :=
  fun _ => by unfold ManaPool.le; infer_instance

instance (p q : ManaPool) : Decidable (p.le q) := by
  unfold ManaPool.le; infer_instance

/-- `impl Sum for ManaPool` (pool.rs lines 308-316): left fold of `+` from the
empty pool. -/
def sumPools (l : List ManaPool) : ManaPool :=
  l.foldl ManaPool.add ManaPool.empty

/-- Lexicographic comparison of two equal-length lists of naturals; shorter
lists compare below longer ones (unused case: all `fields` lists have
length 6). -/
def lexLeAux : List Nat → List Nat → Bool
  | [], [] => true
  | [], _ :: _ => true
  | _ :: _, [] => false
  | a :: as, b :: bs => if a = b then lexLeAux as bs else decide (a < b)

/-- The fields of a pool, in declaration order. -/
def ManaPool.fields (p : ManaPool) : List Nat :=
  [p.white, p.blue, p.black, p.red, p.green, p.colorless]

/-- `derive(Ord)` on `ManaPool` (pool.rs line 10): lexicographic comparison
in field-declaration order.  This is the order used by `solutions.sort()`. -/
def ManaPool.lexLe (p q : ManaPool) : Bool :=
  lexLeAux p.fields q.fields

theorem lexLeAux_trans : ∀ as bs cs : List Nat,
    lexLeAux as bs = true → lexLeAux bs cs = true → lexLeAux as cs = true := by
  intro as
  induction as with
  | nil => intro bs cs _ _; cases cs <;> rfl
  | cons a as ih =>
    intro bs cs h1 h2
    cases bs with
    | nil => simp [lexLeAux] at h1
    | cons b bs =>
      cases cs with
      | nil => simp [lexLeAux] at h2
      | cons c cs =>
        simp only [lexLeAux] at h1 h2 ⊢
        split_ifs at h1 h2 ⊢ <;>
          (try simp only [decide_eq_true_eq] at h1 h2 ⊢) <;>
          first
          | exact ih bs cs h1 h2
          | omega

theorem lexLeAux_total : ∀ as bs : List Nat,
    lexLeAux as bs = true ∨ lexLeAux bs as = true := by
  intro as
  induction as with
  | nil => intro bs; left; cases bs <;> rfl
  | cons a as ih =>
    intro bs
    cases bs with
    | nil => right; rfl
    | cons b bs =>
      simp only [lexLeAux]
      by_cases hab : a = b
      · subst hab
        simp only [if_pos rfl]
        exact ih bs
      · have hba : ¬ b = a := fun h => hab h.symm
        simp only [if_neg hab, if_neg hba, decide_eq_true_eq]
        omega

theorem lexLeAux_antisymm : ∀ as bs : List Nat,
    lexLeAux as bs = true → lexLeAux bs as = true → as = bs := by
  intro as
  induction as with
  | nil => intro bs h1 h2; cases bs with
    | nil => rfl
    | cons b bs => simp [lexLeAux] at h2
  | cons a as ih =>
    intro bs h1 h2
    cases bs with
    | nil => simp [lexLeAux] at h1
    | cons b bs =>
      simp only [lexLeAux] at h1 h2
      by_cases hab : a = b
      · subst hab
        simp only [if_pos rfl] at h1 h2
        rw [ih bs h1 h2]
      · have hba : ¬ b = a := fun h => hab h.symm
        simp only [if_neg hab, if_neg hba, decide_eq_true_eq] at h1 h2
        exfalso
        omega

theorem ManaPool.lexLe_trans (a b c : ManaPool) :
    ManaPool.lexLe a b = true → ManaPool.lexLe b c = true → ManaPool.lexLe a c = true :=
  lexLeAux_trans _ _ _

theorem ManaPool.lexLe_total (a b : ManaPool) :
    (ManaPool.lexLe a b || ManaPool.lexLe b a) = true := by
  rcases lexLeAux_total a.fields b.fields with h | h <;>
    simp [ManaPool.lexLe, h]

theorem ManaPool.fields_inj {p q : ManaPool} (h : p.fields = q.fields) : p = q := by
  simp only [ManaPool.fields, List.cons.injEq, and_true] at h
  ext <;> tauto

theorem ManaPool.lexLe_antisymm {a b : ManaPool}
    (h1 : ManaPool.lexLe a b = true) (h2 : ManaPool.lexLe b a = true) : a = b :=
  ManaPool.fields_inj (lexLeAux_antisymm _ _ h1 h2)

/-- `Vec::dedup` continuation: drop elements equal to the previously kept
element. -/
def dedupAdjFrom {α : Type} [DecidableEq α] (prev : α) : List α → List α
  | [] => []
  | b :: rest => if b = prev then dedupAdjFrom prev rest else b :: dedupAdjFrom b rest

/-- `Vec::dedup`: remove consecutive repeated elements, keeping the first of
each run. -/
def dedupAdj {α : Type} [DecidableEq α] : List α → List α
  | [] => []
  | a :: rest => a :: dedupAdjFrom a rest

theorem mem_dedupAdjFrom_subset {α : Type} [DecidableEq α] {x : α} :
    ∀ (l : List α) (prev : α), x ∈ dedupAdjFrom prev l → x ∈ l := by
  intro l
  induction l with
  | nil => intro prev h; simp [dedupAdjFrom] at h
  | cons b rest ih =>
    intro prev h
    simp only [dedupAdjFrom] at h
    split at h
    · exact List.mem_cons_of_mem _ (ih prev h)
    · rcases List.mem_cons.mp h with rfl | h
      · exact List.mem_cons_self _ _
      · exact List.mem_cons_of_mem _ (ih b h)

theorem mem_dedupAdjFrom_of_mem {α : Type} [DecidableEq α] {x : α} :
    ∀ (l : List α) (prev : α), x ∈ l → x = prev ∨ x ∈ dedupAdjFrom prev l := by
  intro l
  induction l with
  | nil => simp
  | cons b rest ih =>
    intro prev h
    rcases List.mem_cons.mp h with rfl | h
    · simp only [dedupAdjFrom]
      split
      · left; assumption
      · right; exact List.mem_cons_self _ _
    · simp only [dedupAdjFrom]
      split
      · exact ih prev h
      · rcases ih b h with rfl | h'
        · right; exact List.mem_cons_self _ _
        · right; exact List.mem_cons_of_mem _ h'

theorem mem_dedupAdj {α : Type} [DecidableEq α] {x : α} {l : List α} :
    x ∈ dedupAdj l ↔ x ∈ l := by
  cases l with
  | nil => simp [dedupAdj]
  | cons a rest =>
    simp only [dedupAdj, List.mem_cons]
    constructor
    · rintro (rfl | h)
      · exact Or.inl rfl
      · exact Or.inr (mem_dedupAdjFrom_subset _ _ h)
    · rintro (rfl | h)
      · exact Or.inl rfl
      · rcases mem_dedupAdjFrom_of_mem _ a h with rfl | h'
        · exact Or.inl rfl
        · exact Or.inr h'

theorem pairwise_of_chain' {α : Type} {R : α → α → Prop}
    (htrans : ∀ a b c, R a b → R b c → R a c) :
    ∀ l : List α, List.Chain' R l → List.Pairwise R l := by
  intro l
  induction l with
  | nil => intro _; constructor
  | cons a rest ih =>
    intro hc
    rcases rest with _ | ⟨b, rest'⟩
    · simp
    · rw [List.chain'_cons] at hc
      have hp := ih hc.2
      constructor
      · intro x hx
        rcases List.mem_cons.mp hx with rfl | hx
        · exact hc.1
        · exact htrans _ _ _ hc.1 (List.rel_of_pairwise_cons hp hx)
      · exact hp

theorem chain'_dedupAdjFrom {α : Type} [DecidableEq α] {le : α → α → Bool} :
    ∀ (l : List α) (prev : α),
      List.Pairwise (fun a b => le a b = true) (prev :: l) →
      List.Chain' (fun a b => le a b = true ∧ a ≠ b) (prev :: dedupAdjFrom prev l) := by
  intro l
  induction l with
  | nil => intro prev _; simp [dedupAdjFrom]
  | cons b rest ih =>
    intro prev hp
    rw [List.pairwise_cons] at hp
    have hle_b : le prev b = true := hp.1 b (List.mem_cons_self _ _)
    have hp_rest : List.Pairwise (fun a b => le a b = true) (b :: rest) := hp.2
    simp only [dedupAdjFrom]
    split
    · rename_i hb
      subst hb
      apply ih
      rw [List.pairwise_cons]
      refine ⟨fun x hx => hp.1 x (List.mem_cons_of_mem _ hx), ?_⟩
      exact (List.pairwise_cons.mp hp_rest).2
    · rename_i hb
      rw [List.chain'_cons]
      exact ⟨⟨hle_b, fun h => hb (h.symm ▸ rfl)⟩, ih b hp_rest⟩

/-- On a `≤`-sorted list, removing adjacent duplicates yields a list with no
duplicates, provided the comparison is transitive and antisymmetric. -/
theorem nodup_dedupAdj_of_sorted {α : Type} [DecidableEq α] {le : α → α → Bool}
    (htrans : ∀ a b c, le a b = true → le b c = true → le a c = true)
    (hanti : ∀ a b, le a b = true → le b a = true → a = b)
    {l : List α} (hs : List.Pairwise (fun a b => le a b = true) l) :
    (dedupAdj l).Nodup := by
  cases l with
  | nil => simp [dedupAdj]
  | cons a rest =>
    have hchain := chain'_dedupAdjFrom rest a hs
    have hR : ∀ x y z : α, (le x y = true ∧ x ≠ y) → (le y z = true ∧ y ≠ z) →
        (le x z = true ∧ x ≠ z) := by
      rintro x y z ⟨h1, h2⟩ ⟨h3, h4⟩
      refine ⟨htrans _ _ _ h1 h3, fun hxz => ?_⟩
      subst hxz
      exact h2 (hanti _ _ h1 h3)
    have hpw := pairwise_of_chain' hR _ hchain
    exact (hpw.imp fun h => h.2)

/-- `ManaCost` (src/src/game/mana/cost.rs lines 10-13): colored pips plus a
generic count. -/
@[ext]
structure ManaCost where
  colors : ManaPool
  generic : Nat
deriving DecidableEq, Repr

/-- `ManaCost::empty` (cost.rs lines 30-35). -/
def ManaCost.empty : ManaCost := { colors := ManaPool.empty, generic := 0 }

/-- `ManaCost::mana_value` (cost.rs lines 139-141). -/
def ManaCost.manaValue (c : ManaCost) : Nat :=
  c.colors.manaValue + c.generic

-- ======================================================================
--  Helper lemmas about pool arithmetic
-- ======================================================================

theorem checkedSub_eq_some {a b c : Nat} : checkedSub a b = some c ↔ b ≤ a ∧ c = a - b := by
  unfold checkedSub
  split <;> simp_all <;> omega

theorem checkedSub_eq_none {a b : Nat} : checkedSub a b = none ↔ a < b := by
  unfold checkedSub
  split <;> simp_all

theorem ManaPool.sub_eq_some {p q r : ManaPool} :
    p.sub q = some r ↔
      q.le p ∧ r = { white := p.white - q.white, blue := p.blue - q.blue,
                     black := p.black - q.black, red := p.red - q.red,
                     green := p.green - q.green, colorless := p.colorless - q.colorless } := by
  unfold ManaPool.sub ManaPool.le
  constructor
  · intro h
    rcases h1 : checkedSub p.white q.white with _ | w <;> rw [h1] at h <;> simp at h
    rcases h2 : checkedSub p.blue q.blue with _ | u <;> rw [h2] at h <;> simp at h
    rcases h3 : checkedSub p.black q.black with _ | b <;> rw [h3] at h <;> simp at h
    rcases h4 : checkedSub p.red q.red with _ | r' <;> rw [h4] at h <;> simp at h
    rcases h5 : checkedSub p.green q.green with _ | g <;> rw [h5] at h <;> simp at h
    rcases h6 : checkedSub p.colorless q.colorless with _ | c <;> rw [h6] at h <;> simp at h
    rw [checkedSub_eq_some] at h1 h2 h3 h4 h5 h6
    refine ⟨⟨h1.1, h2.1, h3.1, h4.1, h5.1, h6.1⟩, ?_⟩
    rw [← h]
    simp [h1.2, h2.2, h3.2, h4.2, h5.2, h6.2]
  · rintro ⟨⟨h1, h2, h3, h4, h5, h6⟩, rfl⟩
    rw [show checkedSub p.white q.white = some (p.white - q.white) from
          checkedSub_eq_some.mpr ⟨h1, rfl⟩]
    rw [show checkedSub p.blue q.blue = some (p.blue - q.blue) from
          checkedSub_eq_some.mpr ⟨h2, rfl⟩]
    rw [show checkedSub p.black q.black = some (p.black - q.black) from
          checkedSub_eq_some.mpr ⟨h3, rfl⟩]
    rw [show checkedSub p.red q.red = some (p.red - q.red) from
          checkedSub_eq_some.mpr ⟨h4, rfl⟩]
    rw [show checkedSub p.green q.green = some (p.green - q.green) from
          checkedSub_eq_some.mpr ⟨h5, rfl⟩]
    rw [show checkedSub p.colorless q.colorless = some (p.colorless - q.colorless) from
          checkedSub_eq_some.mpr ⟨h6, rfl⟩]
    rfl

theorem ManaPool.sub_eq_none {p q : ManaPool} :
    p.sub q = none ↔
      p.white < q.white ∨ p.blue < q.blue ∨ p.black < q.black ∨
      p.red < q.red ∨ p.green < q.green ∨ p.colorless < q.colorless := by
  constructor
  · intro h
    by_contra hc
    push_neg at hc
    obtain ⟨h1, h2, h3, h4, h5, h6⟩ := hc
    have : p.sub q = some _ := ManaPool.sub_eq_some.mpr ⟨⟨h1, h2, h3, h4, h5, h6⟩, rfl⟩
    rw [this] at h
    exact Option.noConfusion h
  · intro h
    rcases hs : p.sub q with _ | r
    · rfl
    · exfalso
      have := (ManaPool.sub_eq_some.mp hs).1
      unfold ManaPool.le at this
      omega

-- ======================================================================
--  Component-access lemmas
-- ======================================================================

theorem ManaPool.get_set_self (p : ManaPool) (t : ManaType) (v : Nat) :
    (p.set t v).get t = v := by
  cases t <;> rfl

theorem ManaPool.get_set_ne (p : ManaPool) {t t' : ManaType} (h : t' ≠ t) (v : Nat) :
    (p.set t v).get t' = p.get t' := by
  cases t <;> cases t' <;> first | rfl | exact absurd rfl h

theorem ManaPool.get_removePip_self (p : ManaPool) (t : ManaType) :
    (p.removePip t).get t = p.get t - 1 :=
  p.get_set_self t _

theorem ManaPool.get_removePip_ne (p : ManaPool) {t t' : ManaType} (h : t' ≠ t) :
    (p.removePip t).get t' = p.get t' :=
  p.get_set_ne h _

theorem ManaPool.get_addPip_self (p : ManaPool) (t : ManaType) :
    (p.addPip t).get t = p.get t + 1 :=
  p.get_set_self t _

theorem ManaPool.get_addPip_ne (p : ManaPool) {t t' : ManaType} (h : t' ≠ t) :
    (p.addPip t).get t' = p.get t' :=
  p.get_set_ne h _

theorem ManaPool.le_iff_get {p q : ManaPool} : p.le q ↔ ∀ t, p.get t ≤ q.get t := by
  unfold ManaPool.le
  constructor
  · rintro ⟨h1, h2, h3, h4, h5, h6⟩ t
    cases t <;> assumption
  · intro h
    exact ⟨h ManaType.White, h ManaType.Blue, h ManaType.Black, h ManaType.Red,
           h ManaType.Green, h ManaType.Colorless⟩

theorem ManaPool.empty_le (p : ManaPool) : ManaPool.empty.le p := by
  unfold ManaPool.le ManaPool.empty
  simp

theorem ManaPool.manaValue_addPip (p : ManaPool) (t : ManaType) :
    (p.addPip t).manaValue = p.manaValue + 1 := by
  cases t <;> simp [ManaPool.addPip, ManaPool.set, ManaPool.get, ManaPool.manaValue] <;> omega

theorem ManaPool.manaValue_removePip (p : ManaPool) (t : ManaType) (h : 0 < p.get t) :
    (p.removePip t).manaValue = p.manaValue - 1 := by
  cases t <;>
    simp [ManaPool.removePip, ManaPool.set, ManaPool.get, ManaPool.manaValue] at h ⊢ <;>
    omega

theorem ManaPool.addPip_removePip (p : ManaPool) (t : ManaType) (h : 0 < p.get t) :
    (p.removePip t).addPip t = p := by
  cases t <;>
    simp [ManaPool.removePip, ManaPool.addPip, ManaPool.set, ManaPool.get] at h ⊢ <;>
    ext <;> simp <;> omega

theorem ManaType.mem_all (t : ManaType) : t ∈ ManaType.all := by
  cases t <;> simp [ManaType.all]

theorem ManaPool.mem_manaTypes {p : ManaPool} {t : ManaType} :
    t ∈ p.manaTypes ↔ 0 < p.get t := by
  unfold ManaPool.manaTypes
  rw [List.mem_filter]
  simp [ManaType.mem_all]

theorem ManaPool.manaValue_eq_zero {p : ManaPool} (h : p.manaValue = 0) :
    p = ManaPool.empty := by
  unfold ManaPool.manaValue at h
  unfold ManaPool.empty
  ext <;> simp <;> omega

theorem ManaPool.exists_pos_pip {p : ManaPool} (h : 0 < p.manaValue) :
    ∃ t, 0 < p.get t := by
  unfold ManaPool.manaValue at h
  by_cases hw : 0 < p.white
  · exact ⟨ManaType.White, hw⟩
  by_cases hu : 0 < p.blue
  · exact ⟨ManaType.Blue, hu⟩
  by_cases hb : 0 < p.black
  · exact ⟨ManaType.Black, hb⟩
  by_cases hr : 0 < p.red
  · exact ⟨ManaType.Red, hr⟩
  by_cases hg : 0 < p.green
  · exact ⟨ManaType.Green, hg⟩
  exact ⟨ManaType.Colorless, by simp [ManaPool.get]; omega⟩

theorem ManaPool.manaValue_add (p q : ManaPool) :
    (p.add q).manaValue = p.manaValue + q.manaValue := by
  simp [ManaPool.add, ManaPool.manaValue]
  omega

-- ======================================================================
--  Generic-payment enumeration (pool.rs lines 185-203, identical free
--  function in src/src/strategies/payment_solver.rs lines 21-39)
-- ======================================================================

/-- `payment_methods_for_generic`, curried with `generic` first so the
recursion on `generic` is structural.  For `generic = 0` the single solution
is the empty pool; otherwise, for each mana type present, remove one pip,
recurse on `generic - 1`, add the pip back to each sub-solution, collect all
branches in declared type order, then `sort()` and `dedup()`. -/
def paymentMethodsForGenericAux : Nat → ManaPool → List ManaPool
  | 0, _ => [ManaPool.empty]
  | generic + 1, p =>
    let next := paymentMethodsForGenericAux generic
    let solutions :=
      (p.manaTypes.map fun mt =>
        (next (p.removePip mt)).map (fun soln => soln.addPip mt)).flatten
    dedupAdj (solutions.mergeSort ManaPool.lexLe)

/-- `ManaPool::payment_methods_for_generic` (pool.rs lines 185-203): all ways
to pay `generic` generic mana from this pool. -/
def ManaPool.paymentMethodsForGeneric (p : ManaPool) (generic : Nat) : List ManaPool :=
  paymentMethodsForGenericAux generic p

theorem mem_paymentMethodsForGenericAux_succ {p Q : ManaPool} {g : Nat} :
    Q ∈ paymentMethodsForGenericAux (g + 1) p ↔
      ∃ mt ∈ p.manaTypes, ∃ Q' ∈ paymentMethodsForGenericAux g (p.removePip mt),
        Q = Q'.addPip mt := by
  simp only [paymentMethodsForGenericAux]
  rw [mem_dedupAdj, List.mem_mergeSort, List.mem_flatten]
  constructor
  · rintro ⟨l, hl, hQ⟩
    rw [List.mem_map] at hl
    obtain ⟨mt, hmt, rfl⟩ := hl
    rw [List.mem_map] at hQ
    obtain ⟨Q', hQ', rfl⟩ := hQ
    exact ⟨mt, hmt, Q', hQ', rfl⟩
  · rintro ⟨mt, hmt, Q', hQ', rfl⟩
    refine ⟨(paymentMethodsForGenericAux g (p.removePip mt)).map (fun s => s.addPip mt),
            List.mem_map_of_mem _ hmt, List.mem_map_of_mem _ hQ'⟩

theorem paymentMethodsForGenericAux_sound :
    ∀ (g : Nat) (p Q : ManaPool), Q ∈ paymentMethodsForGenericAux g p →
      Q.le p ∧ Q.manaValue = g := by
  intro g
  induction g with
  | zero =>
    intro p Q h
    simp only [paymentMethodsForGenericAux, List.mem_singleton] at h
    subst h
    exact ⟨ManaPool.empty_le p, rfl⟩
  | succ g ih =>
    intro p Q h
    rw [mem_paymentMethodsForGenericAux_succ] at h
    obtain ⟨mt, hmt, Q', hQ', rfl⟩ := h
    obtain ⟨hle, hval⟩ := ih _ _ hQ'
    rw [ManaPool.mem_manaTypes] at hmt
    constructor
    · rw [ManaPool.le_iff_get]
      intro t
      by_cases ht : t = mt
      · subst ht
        rw [ManaPool.get_addPip_self]
        have := (ManaPool.le_iff_get.mp hle) t
        rw [ManaPool.get_removePip_self] at this
        omega
      · rw [ManaPool.get_addPip_ne _ ht]
        have := (ManaPool.le_iff_get.mp hle) t
        rw [ManaPool.get_removePip_ne _ ht] at this
        exact this
    · rw [ManaPool.manaValue_addPip, hval]

theorem paymentMethodsForGenericAux_complete :
    ∀ (g : Nat) (p Q : ManaPool), Q.le p → Q.manaValue = g →
      Q ∈ paymentMethodsForGenericAux g p := by
  intro g
  induction g with
  | zero =>
    intro p Q _ hval
    rw [ManaPool.manaValue_eq_zero hval]
    simp [paymentMethodsForGenericAux]
  | succ g ih =>
    intro p Q hle hval
    obtain ⟨t, ht⟩ := Q.exists_pos_pip (by omega)
    have hpt : 0 < p.get t := lt_of_lt_of_le ht ((ManaPool.le_iff_get.mp hle) t)
    rw [mem_paymentMethodsForGenericAux_succ]
    refine ⟨t, ManaPool.mem_manaTypes.mpr hpt, Q.removePip t, ?_, ?_⟩
    · apply ih
      · rw [ManaPool.le_iff_get]
        intro t'
        by_cases ht' : t' = t
        · subst ht'
          rw [ManaPool.get_removePip_self, ManaPool.get_removePip_self]
          have := (ManaPool.le_iff_get.mp hle) t'
          omega
        · rw [ManaPool.get_removePip_ne _ ht', ManaPool.get_removePip_ne _ ht']
          exact (ManaPool.le_iff_get.mp hle) t'
      · rw [ManaPool.manaValue_removePip _ _ ht, hval]
        omega
    · rw [ManaPool.addPip_removePip _ _ ht]

theorem paymentMethodsForGenericAux_nodup (g : Nat) (p : ManaPool) :
    (paymentMethodsForGenericAux g p).Nodup := by
  cases g with
  | zero => simp [paymentMethodsForGenericAux]
  | succ g =>
    simp only [paymentMethodsForGenericAux]
    exact nodup_dedupAdj_of_sorted ManaPool.lexLe_trans
      (fun a b h1 h2 => ManaPool.lexLe_antisymm h1 h2)
      (List.sorted_mergeSort ManaPool.lexLe_trans ManaPool.lexLe_total _)

-- ======================================================================
--  C2: generic-payment enumeration contract
-- ======================================================================

/-- **C2** — Generic-payment enumeration contract (pool.rs lines 185-203 and
payment_solver.rs lines 21-39): for `k ≤ mana_value(P)`, every returned `Q`
satisfies `Q ≤ P` componentwise and `mana_value(Q) = k`; the returned
sequence has no duplicates; every such `Q` appears; and for `k = 0` the
single result is the empty pool. -/
theorem payment_methods_for_generic_contract (P : ManaPool) (k : Nat)
    (hk : k ≤ P.manaValue) :
    (∀ Q ∈ P.paymentMethodsForGeneric k, Q.le P ∧ Q.manaValue = k) ∧
    (P.paymentMethodsForGeneric k).Nodup ∧
    (∀ Q : ManaPool, Q.le P → Q.manaValue = k → Q ∈ P.paymentMethodsForGeneric k) ∧
    P.paymentMethodsForGeneric 0 = [ManaPool.empty] := by
  refine ⟨?_, paymentMethodsForGenericAux_nodup k P, ?_, rfl⟩
  · intro Q hQ
    exact paymentMethodsForGenericAux_sound k P Q hQ
  · intro Q h1 h2
    exact paymentMethodsForGenericAux_complete k P Q h1 h2

/-- Witness for C2 at `P = {W}{U}`, `k = 1`. -/
theorem payment_methods_for_generic_contract_witness :
    (1 ≤ ((ManaPool.ofWhite 1).add (ManaPool.ofBlue 1)).manaValue) ∧
    ((∀ Q ∈ ((ManaPool.ofWhite 1).add (ManaPool.ofBlue 1)).paymentMethodsForGeneric 1,
        Q.le ((ManaPool.ofWhite 1).add (ManaPool.ofBlue 1)) ∧ Q.manaValue = 1) ∧
     (((ManaPool.ofWhite 1).add (ManaPool.ofBlue 1)).paymentMethodsForGeneric 1).Nodup ∧
     (∀ Q : ManaPool, Q.le ((ManaPool.ofWhite 1).add (ManaPool.ofBlue 1)) →
        Q.manaValue = 1 →
        Q ∈ ((ManaPool.ofWhite 1).add (ManaPool.ofBlue 1)).paymentMethodsForGeneric 1) ∧
     ((ManaPool.ofWhite 1).add (ManaPool.ofBlue 1)).paymentMethodsForGeneric 0 =
        [ManaPool.empty]) :=
  ⟨by decide,
   payment_methods_for_generic_contract ((ManaPool.ofWhite 1).add (ManaPool.ofBlue 1)) 1
     (by decide)⟩

-- ======================================================================
--  Full-cost enumeration (pool.rs lines 222-238, identical free function in
--  payment_solver.rs lines 59-73)
-- ======================================================================

/-- `ManaPool::payment_methods_for` (pool.rs lines 222-238): first pay the
colored portion via checked subtraction (underflow means no solutions), then
enumerate generic payments from the remainder and add the colored portion
back to each. -/
def ManaPool.paymentMethodsFor (p : ManaPool) (cost : ManaCost) : List ManaPool :=
  match p.sub cost.colors with
  | none => []
  | some remaining =>
    (remaining.paymentMethodsForGeneric cost.generic).map
      (fun payment => payment.add cost.colors)

-- ======================================================================
--  C3: cost-payment enumeration contract
-- ======================================================================

/-- **C3** — Cost-payment enumeration contract (pool.rs lines 222-238 and
payment_solver.rs lines 59-73): every returned payment `R` dominates the
cost's colored pips, has mana value equal to the cost's mana value, and fits
inside the available pool; if subtracting the colored pips underflows, no
payments are returned. -/
theorem payment_methods_for_contract (P : ManaPool) (c : ManaCost) :
    (∀ R ∈ P.paymentMethodsFor c,
        c.colors.le R ∧ R.manaValue = c.manaValue ∧ R.le P) ∧
    (P.sub c.colors = none → P.paymentMethodsFor c = []) := by
  unfold ManaPool.paymentMethodsFor
  rcases hsub : P.sub c.colors with _ | remaining
  · exact ⟨fun R hR => absurd hR (List.not_mem_nil R), fun _ => rfl⟩
  · obtain ⟨hcle, hrem⟩ := ManaPool.sub_eq_some.mp hsub
    refine ⟨?_, fun h => absurd h (by simp)⟩
    intro R hR
    rw [List.mem_map] at hR
    obtain ⟨Q, hQ, rfl⟩ := hR
    obtain ⟨hQle, hQval⟩ := paymentMethodsForGenericAux_sound _ _ _ hQ
    refine ⟨?_, ?_, ?_⟩
    · unfold ManaPool.le ManaPool.add
      simp
    · rw [ManaPool.manaValue_add, hQval]
      unfold ManaCost.manaValue
      omega
    · subst hrem
      unfold ManaPool.le at hcle hQle ⊢
      unfold ManaPool.add
      simp at hQle ⊢
      omega

/-- Witness for C3 at `P = {W}{U}{G}`, `c = {1}{W}` (the doctest example). -/
theorem payment_methods_for_contract_witness :
    (∀ R ∈ (⟨1, 1, 0, 0, 1, 0⟩ : ManaPool).paymentMethodsFor ⟨ManaPool.ofWhite 1, 1⟩,
        (ManaPool.ofWhite 1).le R ∧
        R.manaValue = (⟨ManaPool.ofWhite 1, 1⟩ : ManaCost).manaValue ∧
        R.le ⟨1, 1, 0, 0, 1, 0⟩) ∧
    ((⟨1, 1, 0, 0, 1, 0⟩ : ManaPool).sub (ManaPool.ofWhite 1) = none →
      (⟨1, 1, 0, 0, 1, 0⟩ : ManaPool).paymentMethodsFor ⟨ManaPool.ofWhite 1, 1⟩ = []) :=
  payment_methods_for_contract ⟨1, 1, 0, 0, 1, 0⟩ ⟨ManaPool.ofWhite 1, 1⟩

-- ======================================================================
--  C6: mana pool arithmetic laws
-- ======================================================================

/-- **C6** — Mana pool arithmetic laws (pool.rs lines 270-299): addition is
commutative, `(p + q) - q = p`, and `p - q` underflows (returns `None`)
iff some component of `q` exceeds the corresponding component of `p`. -/
theorem mana_pool_arith_laws (p q : ManaPool) :
    p.add q = q.add p ∧
    (p.add q).sub q = some p ∧
    (p.sub q = none ↔
      p.white < q.white ∨ p.blue < q.blue ∨ p.black < q.black ∨
      p.red < q.red ∨ p.green < q.green ∨ p.colorless < q.colorless) := by
  refine ⟨?_, ?_, ManaPool.sub_eq_none⟩
  · unfold ManaPool.add
    ext <;> simp <;> omega
  · rw [ManaPool.sub_eq_some]
    unfold ManaPool.add ManaPool.le
    constructor
    · simp
    · ext <;> simp

-- ======================================================================
--  Autotap search (src/src/strategies/payment_solver.rs lines 77-185)
-- ======================================================================

/-- `Card` (src/src/collection.rs lines 139-141): an opaque dense index into
the card collection. -/
structure Card where
  idx : Nat
deriving DecidableEq, Repr

/-- `ManaSource` (src/src/game/mana/mana_source.rs lines 13-16): a permanent
together with the pools it can tap for, one per tap-mode. -/
structure ManaSource where
  card : Card
  produces : List ManaPool
deriving DecidableEq, Repr

/-- `PaymentSolution` (payment_solver.rs lines 77-81). -/
structure PaymentSolution where
  cards_to_tap : List (Card × ManaPool)
  mana_used : ManaPool
deriving DecidableEq, Repr

/-- `PaymentSolution::new` (payment_solver.rs lines 83-88). -/
def PaymentSolution.new : PaymentSolution :=
  { cards_to_tap := [], mana_used := ManaPool.empty }

/-- `PaymentSolution::add` (payment_solver.rs lines 89-92): accumulate the
pool and push the tap. -/
def PaymentSolution.addTap (s : PaymentSolution) (card : Card) (mana : ManaPool) :
    PaymentSolution :=
  { cards_to_tap := s.cards_to_tap ++ [(card, mana)],
    mana_used := s.mana_used.add mana }

/-- `PaymentSolution::with_payment` (payment_solver.rs lines 93-97). -/
def PaymentSolution.withPayment (s : PaymentSolution) (card : Card) (mana : ManaPool) :
    PaymentSolution :=
  s.addTap card mana

/-- The `available_mana.retain(..)` pass of `autotap_pay_for`
(payment_solver.rs lines 148-157): drop sources with no tap-mode, eagerly
commit sources with exactly one tap-mode into the partial solution, keep the
rest (in order). -/
def forcedTapPass : List ManaSource → PaymentSolution → PaymentSolution × List ManaSource
  | [], acc => (acc, [])
  | src :: rest, acc =>
    match src.produces with
    | [] => forcedTapPass rest acc
    | [mana] => forcedTapPass rest (acc.addTap src.card mana)
    | _ =>
      let r := forcedTapPass rest acc
      (r.1, src :: r.2)

mutual

/-- `_autotap_recursive` (payment_solver.rs lines 159-182).  If the
accumulated pool already admits a payment for the cost, succeed with the
partial solution and the remaining sources; otherwise pop the last source
(`Vec::pop`) and try its tap-modes in order. -/
def autotapRecursive (cost : ManaCost) (partialSoln : PaymentSolution)
    (avail : List ManaSource) : Option (PaymentSolution × List ManaSource) :=
  if partialSoln.mana_used.paymentMethodsFor cost ≠ [] then
    some (partialSoln, avail)
  else
    match h : avail.getLast? with
    | none => none
    | some newSource =>
      autotapTryModes cost partialSoln newSource avail.dropLast newSource.produces
termination_by (avail.length, 1, 0)
decreasing_by
  have hne : avail ≠ [] := by
    intro he
    subst he
    simp at h
  have hlen : 0 < avail.length := List.length_pos.mpr hne
  have hdl : avail.dropLast.length = avail.length - 1 := List.length_dropLast avail
  simp_wf
  simp [Prod.lex_def]
  omega

/-- The `for payment in new_source.produces` loop of `_autotap_recursive`
(payment_solver.rs lines 171-179): commit the tap-mode, recurse, and
backtrack to the next mode on failure. -/
def autotapTryModes (cost : ManaCost) (partialSoln : PaymentSolution)
    (src : ManaSource) (rest : List ManaSource) :
    List ManaPool → Option (PaymentSolution × List ManaSource)
  | [] => none
  | payment :: more =>
    match autotapRecursive cost (partialSoln.withPayment src.card payment) rest with
    | some solution => some solution
    | none => autotapTryModes cost partialSoln src rest more
termination_by payments => (rest.length + 1, 0, payments.length)
decreasing_by
  · simp_wf
    simp [Prod.lex_def]
  · simp_wf
    simp [Prod.lex_def]

end

/-- `autotap_pay_for` (payment_solver.rs lines 142-185): the forced-tap pass
followed by the recursive search. -/
def autotapPayFor (availableMana : List ManaSource) (cost : ManaCost) :
    Option (PaymentSolution × List ManaSource) :=
  let r := forcedTapPass availableMana PaymentSolution.new
  autotapRecursive cost r.1 r.2

theorem sumPools_append_single (l : List ManaPool) (m : ManaPool) :
    sumPools (l ++ [m]) = (sumPools l).add m := by
  unfold sumPools
  rw [List.foldl_append]
  rfl

/-- The bookkeeping invariant of `PaymentSolution`: `mana_used` is the sum of
the pools committed in `cards_to_tap`. -/
def solnInv (s : PaymentSolution) : Prop :=
  s.mana_used = sumPools (s.cards_to_tap.map Prod.snd)

theorem solnInv_new : solnInv PaymentSolution.new := rfl

theorem solnInv_addTap {s : PaymentSolution} (h : solnInv s) (card : Card) (mana : ManaPool) :
    solnInv (s.addTap card mana) := by
  unfold solnInv PaymentSolution.addTap at *
  simp only [List.map_append, List.map_cons, List.map_nil]
  rw [sumPools_append_single, h]

theorem forcedTapPass_sound :
    ∀ (srcs : List ManaSource) (acc : PaymentSolution), solnInv acc →
      solnInv (forcedTapPass srcs acc).1 ∧ (forcedTapPass srcs acc).2.Sublist srcs := by
  intro srcs
  induction srcs with
  | nil => intro acc h; exact ⟨h, List.Sublist.refl _⟩
  | cons src rest ih =>
    intro acc h
    simp only [forcedTapPass]
    split
    · obtain ⟨h1, h2⟩ := ih acc h
      exact ⟨h1, h2.trans (List.sublist_cons_self _ _)⟩
    · obtain ⟨h1, h2⟩ := ih _ (solnInv_addTap h src.card _)
      exact ⟨h1, h2.trans (List.sublist_cons_self _ _)⟩
    · obtain ⟨h1, h2⟩ := ih acc h
      exact ⟨h1, List.Sublist.cons₂ _ h2⟩

theorem autotapRecursive_sound :
    ∀ (n : Nat) (cost : ManaCost) (partialSoln : PaymentSolution)
      (avail : List ManaSource), avail.length ≤ n → solnInv partialSoln →
      ∀ soln unused, autotapRecursive cost partialSoln avail = some (soln, unused) →
        solnInv soln ∧ soln.mana_used.paymentMethodsFor cost ≠ [] ∧
          unused.Sublist avail := by
  intro n
  induction n with
  | zero =>
    intro cost partialSoln avail hlen hinv soln unused h
    have havail : avail = [] := List.length_eq_zero.mp (Nat.le_zero.mp hlen)
    subst havail
    rw [autotapRecursive.eq_def] at h
    split at h
    · rename_i hpm
      simp only [Option.some.injEq, Prod.mk.injEq] at h
      obtain ⟨rfl, rfl⟩ := h
      exact ⟨hinv, hpm, List.Sublist.refl _⟩
    · simp at h
  | succ n ih =>
    intro cost partialSoln avail hlen hinv soln unused h
    rw [autotapRecursive.eq_def] at h
    split at h
    · rename_i hpm
      simp only [Option.some.injEq, Prod.mk.injEq] at h
      obtain ⟨rfl, rfl⟩ := h
      exact ⟨hinv, hpm, List.Sublist.refl _⟩
    · rename_i hpm
      split at h
      · exact absurd h (by simp)
      · rename_i newSource hlast
        have hne : avail ≠ [] := by
          intro he
          subst he
          simp at hlast
        have hdrop : avail.dropLast.length ≤ n := by
          have := List.length_dropLast avail
          have := List.length_pos.mpr hne
          omega
        -- the tap-mode loop, by induction over the list of modes
        have hmodes :
            ∀ (payments : List ManaPool) (pSoln : PaymentSolution), solnInv pSoln →
              autotapTryModes cost pSoln newSource avail.dropLast payments =
                some (soln, unused) →
              solnInv soln ∧ soln.mana_used.paymentMethodsFor cost ≠ [] ∧
                unused.Sublist avail.dropLast := by
          intro payments
          induction payments with
          | nil =>
            intro pSoln _ hx
            rw [autotapTryModes.eq_def] at hx
            simp at hx
          | cons payment more ihm =>
            intro pSoln hpinv hx
            rw [autotapTryModes.eq_def] at hx
            dsimp only at hx
            split at hx
            · rename_i sol hsol
              rw [Option.some.injEq] at hx
              subst hx
              exact ih cost _ _ hdrop
                (solnInv_addTap hpinv newSource.card payment) soln unused hsol
            · exact ihm pSoln hpinv hx
        obtain ⟨h1, h2, h3⟩ := hmodes newSource.produces partialSoln hinv h
        exact ⟨h1, h2, h3.trans (List.dropLast_sublist avail)⟩

-- ======================================================================
--  C4: autotap soundness
-- ======================================================================

/-- **C4** — Autotap soundness (payment_solver.rs lines 77-98 and 142-185):
whenever `autotap_pay_for(sources, cost)` returns a solution, its `mana_used`
equals the componentwise sum of the pools committed in `cards_to_tap`, the
accumulated pool admits a payment for the cost
(`payment_methods_for(mana_used, cost)` is non-empty), and the solution is
returned together with the still-untapped sources (a sublist of the input
sources). -/
theorem autotap_pay_for_sound (sources : List ManaSource) (cost : ManaCost)
    (soln : PaymentSolution) (unused : List ManaSource)
    (h : autotapPayFor sources cost = some (soln, unused)) :
    soln.mana_used = sumPools (soln.cards_to_tap.map Prod.snd) ∧
    soln.mana_used.paymentMethodsFor cost ≠ [] ∧
    unused.Sublist sources := by
  unfold autotapPayFor at h
  obtain ⟨hinv, hsub⟩ := forcedTapPass_sound sources PaymentSolution.new solnInv_new
  obtain ⟨h1, h2, h3⟩ :=
    autotapRecursive_sound (forcedTapPass sources PaymentSolution.new).2.length cost
      (forcedTapPass sources PaymentSolution.new).1
      (forcedTapPass sources PaymentSolution.new).2 (Nat.le_refl _) hinv soln unused h
  exact ⟨h1, h2, h3.trans hsub⟩

/-- A one-mode green source (the spec's "forest" in the autotap scenario). -/
def forestSource : ManaSource := { card := ⟨0⟩, produces := [ManaPool.ofGreen 1] }

/-- A two-mode red-or-green source (the spec's "taiga"). -/
def taigaSource : ManaSource :=
  { card := ⟨1⟩, produces := [ManaPool.ofRed 1, ManaPool.ofGreen 1] }

/-- The cost `{R}{G}` of the autotap scenario. -/
def dualLandCost : ManaCost :=
  { colors := (ManaPool.ofRed 1).add (ManaPool.ofGreen 1), generic := 0 }

/-- The solution the solver finds for the dual-land scenario. -/
def dualLandSolution : PaymentSolution :=
  { cards_to_tap := [(⟨0⟩, ManaPool.ofGreen 1), (⟨1⟩, ManaPool.ofRed 1)],
    mana_used := (ManaPool.ofGreen 1).add (ManaPool.ofRed 1) }

/-- Witness for C4: the solver run on the dual-land scenario succeeds, and the
soundness theorem applies to its output. -/
theorem autotap_pay_for_sound_witness :
    autotapPayFor [forestSource, taigaSource] dualLandCost =
      some (dualLandSolution, []) ∧
    (dualLandSolution.mana_used = sumPools (dualLandSolution.cards_to_tap.map Prod.snd) ∧
     dualLandSolution.mana_used.paymentMethodsFor dualLandCost ≠ [] ∧
     ([] : List ManaSource).Sublist [forestSource, taigaSource]) := by
  have hinner :
      autotapRecursive dualLandCost
        (PaymentSolution.new.addTap ⟨0⟩ (ManaPool.ofGreen 1)
          |>.withPayment taigaSource.card (ManaPool.ofRed 1)) []
        = some (dualLandSolution, []) := by
    rw [autotapRecursive.eq_def]
    rw [if_pos (by decide)]
    rfl
  have heval : autotapPayFor [forestSource, taigaSource] dualLandCost
      = some (dualLandSolution, []) := by
    show autotapRecursive dualLandCost
      (PaymentSolution.new.addTap ⟨0⟩ (ManaPool.ofGreen 1)) [taigaSource]
      = some (dualLandSolution, [])
    rw [autotapRecursive.eq_def]
    rw [if_neg (by decide)]
    show autotapTryModes dualLandCost
      (PaymentSolution.new.addTap ⟨0⟩ (ManaPool.ofGreen 1)) taigaSource []
      [ManaPool.ofRed 1, ManaPool.ofGreen 1] = some (dualLandSolution, [])
    rw [autotapTryModes.eq_def]
    dsimp only
    rw [hinner]
  exact ⟨heval, autotap_pay_for_sound _ _ _ _ heval⟩

-- ======================================================================
--  Metrics (src/src/metrics.rs)
-- ======================================================================

/-- `MetricsKey` (src/src/metrics.rs lines 8-13). -/
structure MetricsKey where
  metrics_name : String
  card : Option Card
  turn_num : Option Nat
deriving DecidableEq, Repr

/-- `Metrics` (metrics.rs lines 53-60): the aggregates stored per key. -/
@[ext]
structure Metrics where
  total : Nat
  min : Nat
  max : Nat
  trials_seen : Nat
  count : Nat
deriving DecidableEq, Repr

/-- `Metrics::merge_in` (metrics.rs lines 87-97): componentwise sum of
`total`, `trials_seen` and `count`, minimum of `min`, maximum of `max`. -/
def Metrics.mergeIn (self other : Metrics) : Metrics :=
  { total := self.total + other.total
    min := Nat.min self.min other.min
    max := Nat.max self.max other.max
    trials_seen := self.trials_seen + other.trials_seen
    count := self.count + other.count }

/-- `MetricsData` (metrics.rs lines 105-110).  The `HashMap` is modelled
extensionally as a function from keys to optional entries, which is exactly
the equality `HashMap` semantics the merge laws quantify over. -/
@[ext]
structure MetricsData where
  trials_seen : Nat
  metrics : MetricsKey → Option Metrics

/-- `MetricsData::empty` (metrics.rs lines 120-125). -/
def MetricsData.empty : MetricsData :=
  { trials_seen := 0, metrics := fun _ => none }

/-- `MetricsData::join` (metrics.rs lines 212-232): add the trial counts; for
each key of the right map, merge into an occupied left entry via
`Metrics::merge_in` or insert if vacant; keys only in the left map are kept
unchanged. -/
def MetricsData.join (left right : MetricsData) : MetricsData :=
  { trials_seen := left.trials_seen + right.trials_seen
    metrics := fun k =>
      match left.metrics k, right.metrics k with
      | some l, some r => some (l.mergeIn r)
      | some l, none => some l
      | none, some r => some r
      | none, none => none }

theorem Metrics.mergeIn_comm (x y : Metrics) : x.mergeIn y = y.mergeIn x := by
  unfold Metrics.mergeIn
  ext <;> simp [Nat.min_comm, Nat.max_comm, Nat.add_comm]

theorem Metrics.mergeIn_assoc (x y z : Metrics) :
    (x.mergeIn y).mergeIn z = x.mergeIn (y.mergeIn z) := by
  unfold Metrics.mergeIn
  ext <;> simp [Nat.min_assoc, Nat.max_assoc] <;> omega

-- ======================================================================
--  C7: metrics merge laws
-- ======================================================================

/-- **C7** — Metrics merge laws (metrics.rs lines 212-232 and 87-97):
`join(a, empty) = a`, `join` is commutative and associative, and for every
key present in both operands the merged entry's `sum` (`total`) is the sum of
the two `total`s, its `min` the minimum of the two `min`s, and its `max` the
maximum of the two `max`es. -/
theorem metrics_join_laws (a b c : MetricsData) :
    MetricsData.join a MetricsData.empty = a ∧
    MetricsData.join a b = MetricsData.join b a ∧
    MetricsData.join (MetricsData.join a b) c =
      MetricsData.join a (MetricsData.join b c) ∧
    (∀ (k : MetricsKey) (ml mr : Metrics),
      a.metrics k = some ml → b.metrics k = some mr →
      ∃ m, (MetricsData.join a b).metrics k = some m ∧
        m.total = ml.total + mr.total ∧
        m.min = Nat.min ml.min mr.min ∧
        m.max = Nat.max ml.max mr.max) := by
  refine ⟨?_, ?_, ?_, ?_⟩
  · ext k
    · simp [MetricsData.join, MetricsData.empty]
    · rcases h : a.metrics k with _ | l <;>
        simp [MetricsData.join, MetricsData.empty, h]
  · ext k
    · simp [MetricsData.join, Nat.add_comm]
    · rcases ha : a.metrics k with _ | l <;> rcases hb : b.metrics k with _ | r <;>
        simp [MetricsData.join, ha, hb, Metrics.mergeIn_comm]
  · ext k
    · simp [MetricsData.join]
      omega
    · rcases ha : a.metrics k with _ | l <;> rcases hb : b.metrics k with _ | r <;>
        rcases hc : c.metrics k with _ | s <;>
        simp [MetricsData.join, ha, hb, hc, Metrics.mergeIn_assoc]
  · intro k ml mr hl hr
    refine ⟨ml.mergeIn mr, ?_, rfl, rfl, rfl⟩
    simp [MetricsData.join, hl, hr]

/-- A concrete per-trial metrics snapshot for the C7 witness. -/
def metricsSnapA : MetricsData :=
  { trials_seen := 1
    metrics := fun k =>
      if k = ⟨"lands", none, none⟩ then some ⟨3, 3, 3, 1, 1⟩ else none }

/-- A second concrete metrics snapshot for the C7 witness. -/
def metricsSnapB : MetricsData :=
  { trials_seen := 1
    metrics := fun k =>
      if k = ⟨"lands", none, none⟩ then some ⟨5, 5, 5, 1, 1⟩ else none }

/-- Witness for C7: the per-key law instantiated at two snapshots that both
contain the key `"lands"`. -/
theorem metrics_join_laws_witness :
    ∃ m, (MetricsData.join metricsSnapA metricsSnapB).metrics ⟨"lands", none, none⟩ =
        some m ∧
      m.total = 3 + 5 ∧ m.min = Nat.min 3 5 ∧ m.max = Nat.max 3 5 :=
  (metrics_join_laws metricsSnapA metricsSnapB MetricsData.empty).2.2.2
    ⟨"lands", none, none⟩ ⟨3, 3, 3, 1, 1⟩ ⟨5, 5, 5, 1, 1⟩ (by decide) (by decide)

-- ======================================================================
--  C9: ManaPool::colorless fills the wrong field
-- ======================================================================

/-- **C9** — The claim states `ManaPool::colorless(n)` (and hence
`ManaPool::of(Colorless, n)`) returns a pool with colorless component `n` and
the other components zero, as the constructor's documentation intends.  The
source (pool.rs lines 89-94) instead binds the argument to the `green` field:
evaluated at `n = 1`, the pool produced has `colorless = 0` and `green = 1`. -/
theorem colorless_constructor_fills_green :
    (ManaPool.ofColorless 1).colorless = 0 ∧
    (ManaPool.ofColorless 1).green = 1 ∧
    (ManaPool.of ManaType.Colorless 1).colorless = 0 ∧
    (ManaPool.of ManaType.Colorless 1).green = 1 := by
  refine ⟨rfl, rfl, rfl, rfl⟩

-- ======================================================================
--  Game state (src/src/game.rs, src/src/game/state.rs,
--  src/src/game/unordered_pile.rs, src/src/game/card_play.rs)
-- ======================================================================

/-- `Zone` (src/src/game.rs lines 28-35). -/
inductive Zone where
  | Library
  | CommandZone
  | Hand
  | Graveyard
  | Battlefield
deriving DecidableEq, Repr

/-- Modelled from the spec: the `CardType` enum revision used by
`state.rs`/`convert.rs` is not under `src/` (`src/src/game/card.rs` is an
older two-variant revision).  The spec (§3) draws the primary type from
{Land, Instant, Sorcery, Creature, Artifact, Enchantment, Planeswalker};
`convert.rs` constructs Land, Instant, Sorcery and Creature. -/
inductive CardType where
  | Land
  | Instant
  | Sorcery
  | Creature
  | Artifact
  | Enchantment
  | Planeswalker
deriving DecidableEq, Repr

/-- Modelled from the spec: the card record (§3, "Card record —
`{name, primary_type, cost?}`"); the `CardData` revision with a `ManaCost`
cost used by the strategy layer is not under `src/`. -/
structure CardData where
  name : String
  card_type : CardType
  cost : Option ManaCost
deriving DecidableEq, Repr

/-- Modelled from the spec: the published card registry (§3 "Registry",
installed once per process), viewed as total functions from handles:
`data` is `Card::data()` and `producesView` is the `core:Produces`
annotation-value list read by `ManaSource::try_from`. -/
structure CardEnv where
  data : Card → CardData
  producesView : Card → Option (List ManaPool)

/-- `UnorderedPile::remove` (src/src/game/unordered_pile.rs lines 57-67):
locate the first matching handle and `swap_remove` it (replace it with the
last element and pop); returns whether a card was removed together with the
resulting pile. -/
def pileRemove (pile : List Card) (card : Card) : Bool × List Card :=
  match pile.findIdx? (fun c => c = card) with
  | none => (false, pile)
  | some idx => (true, (pile.set idx (pile.getLastD card)).dropLast)

/-- `TurnState` (state.rs lines 218-222). -/
structure TurnState where
  land_drops_made : Nat
  tapped : List Card
deriving DecidableEq, Repr

/-- `TurnState::new` (state.rs lines 226-231). -/
def TurnState.new : TurnState := { land_drops_made := 0, tapped := [] }

/-- `TurnState::reset` (state.rs lines 232-235): zero the land-drop counter
and clear the tapped set. -/
def TurnState.reset (_ts : TurnState) : TurnState :=
  { land_drops_made := 0, tapped := [] }

/-- `State` (state.rs lines 22-39). -/
structure State where
  turn : Nat
  draw_on_first_turn : Bool
  num_mulligans_taken : Nat
  game_loss : Bool
  turn_state : TurnState
  max_land_drops_per_turn : Nat
  library : List Card
  hand : List Card
  permanents : List Card
  graveyard : List Card
  command_zone : List Card
deriving DecidableEq, Repr

/-- `CardPlay` (src/src/game/card_play.rs lines 7-15). -/
structure CardPlay where
  card : Card
  zone : Zone
  payment : ManaPool
deriving DecidableEq, Repr

/-- `State::remove_from_zone` (state.rs lines 97-105).  The `Zone::Library`
arm is `todo!()` (a panic) in the source — unreachable in the current
strategy surface — and is modelled as the identity; no claim exercises it. -/
def State.removeFromZone (s : State) (card : Card) (zone : Zone) : State :=
  match zone with
  | Zone.CommandZone => { s with command_zone := (pileRemove s.command_zone card).2 }
  | Zone.Hand => { s with hand := (pileRemove s.hand card).2 }
  | Zone.Graveyard => { s with graveyard := (pileRemove s.graveyard card).2 }
  | Zone.Battlefield => { s with permanents := (pileRemove s.permanents card).2 }
  | Zone.Library => s

/-- `State::play_card` (state.rs lines 115-135): remove the card from its
origin zone, then append it to the destination selected by primary type
(Instant/Sorcery → graveyard; Land → battlefield, incrementing the land-drop
counter; anything else → battlefield).  `UnorderedPile::add` pushes at the
end of the vector. -/
def State.playCard (env : CardEnv) (s : State) (cp : CardPlay) : State :=
  let s1 := s.removeFromZone cp.card cp.zone
  match (env.data cp.card).card_type with
  | CardType.Instant | CardType.Sorcery =>
    { s1 with graveyard := s1.graveyard ++ [cp.card] }
  | CardType.Land =>
    { s1 with
      turn_state := { s1.turn_state with
                      land_drops_made := s1.turn_state.land_drops_made + 1 }
      permanents := s1.permanents ++ [cp.card] }
  | _ => { s1 with permanents := s1.permanents ++ [cp.card] }

/-- `State::end_turn` (state.rs lines 137-140): reset the per-turn state and
increment the turn counter. -/
def State.endTurn (s : State) : State :=
  { s with turn_state := s.turn_state.reset, turn := s.turn + 1 }

/-- The per-play block of `Trial::run` (trial.rs lines 104-110 for the land
drop and lines 112-122 for the other plays): after the watcher event (which
does not touch zones), the driver removes the played card from the hand
(`self.state.hand.remove(..)`) and then calls `State::play_card`, which
removes it from its origin zone a second time. -/
def Trial.playStep (env : CardEnv) (s : State) (cp : CardPlay) : State :=
  let s1 := { s with hand := (pileRemove s.hand cp.card).2 }
  s1.playCard env cp

/-- The end-of-turn tail of the trial loop (trial.rs lines 124-125): the
driver emits `turn_end` (metrics only) and then increments `state.turn`
directly; `State::end_turn` is never called, so the per-turn state is not
reset. -/
def Trial.turnEndStep (s : State) : State :=
  { s with turn := s.turn + 1 }

/-- The conserved quantity of C1:
`|library| + |hand| + |permanents| + |graveyard| + |command_zone|`. -/
def State.zoneSum (s : State) : Nat :=
  s.library.length + s.hand.length + s.permanents.length + s.graveyard.length +
    s.command_zone.length

/-- A registry mapping every handle to a castable creature, for the C1
scenario. -/
def conservEnv : CardEnv :=
  { data := fun _ =>
      { name := "X", card_type := CardType.Creature, cost := some ManaCost.empty }
    producesView := fun _ => none }

/-- A mid-trial state whose hand holds two copies of the same card (deck size
`N = 2`). -/
def conservState : State :=
  { turn := 1, draw_on_first_turn := true, num_mulligans_taken := 0,
    game_loss := false, turn_state := TurnState.new, max_land_drops_per_turn := 1,
    library := [], hand := [⟨0⟩, ⟨0⟩], permanents := [], graveyard := [],
    command_zone := [] }

-- ======================================================================
--  C1: trial conservation is broken by the driver's double removal
-- ======================================================================

/-- **C1** — The claim says the zone-count sum stays exactly `N` at every
moment of `Trial::run`.  But the driver removes each played card from the
hand and `State::play_card` removes it from its origin zone again
(trial.rs lines 104-122, state.rs lines 97-135), so playing a card while the
hand holds a second copy of it destroys that copy: from the state with hand
`[X, X]` (`N = 2`), the driver's play block yields zone sum `1`.
`State::play_card` alone conserves the sum (third conjunct), pinning the loss
on the extra `hand.remove` in the driver. -/
theorem trial_conservation_violated :
    conservState.zoneSum = 2 ∧
    (Trial.playStep conservEnv conservState
      { card := ⟨0⟩, zone := Zone.Hand, payment := ManaPool.empty }).zoneSum = 1 ∧
    (conservState.playCard conservEnv
      { card := ⟨0⟩, zone := Zone.Hand, payment := ManaPool.empty }).zoneSum = 2 := by
  refine ⟨rfl, rfl, rfl⟩

-- ======================================================================
--  C8: end_turn is never performed by the trial driver
-- ======================================================================

/-- A registry mapping every handle to a land, for the C8 scenario. -/
def landEnv : CardEnv :=
  { data := fun _ => { name := "Forest", card_type := CardType.Land, cost := none }
    producesView := fun _ => some [ManaPool.ofGreen 1] }

/-- The state at the top of turn 1 of the C8 scenario, a land in hand. -/
def turnOneState : State :=
  { turn := 1, draw_on_first_turn := true, num_mulligans_taken := 0,
    game_loss := false, turn_state := TurnState.new, max_land_drops_per_turn := 1,
    library := [⟨1⟩], hand := [⟨0⟩], permanents := [], graveyard := [],
    command_zone := [] }

/-- **C8** — The claim says the driver performs `end_turn` after emitting
`turn_end`, resetting the per-turn state, so every turn starts with
`land_drops_made = 0`.  The driver (trial.rs lines 124-125) instead runs
`self.state.turn += 1` and never calls `State::end_turn` (defined at state.rs
lines 137-140 but unused): after a land drop on turn 1, the state at the
start of turn 2 still has `land_drops_made = 1`, while the `end_turn` the
claim describes would reset it to `0`. -/
theorem end_turn_not_performed :
    (Trial.turnEndStep (Trial.playStep landEnv turnOneState
        { card := ⟨0⟩, zone := Zone.Hand, payment := ManaPool.empty })).turn = 2 ∧
    (Trial.turnEndStep (Trial.playStep landEnv turnOneState
        { card := ⟨0⟩, zone := Zone.Hand,
          payment := ManaPool.empty })).turn_state.land_drops_made = 1 ∧
    (State.endTurn (Trial.playStep landEnv turnOneState
        { card := ⟨0⟩, zone := Zone.Hand,
          payment := ManaPool.empty })).turn_state.land_drops_made = 0 := by
  refine ⟨rfl, rfl, rfl⟩

-- ======================================================================
--  Strategy layer (src/src/strategies/card_play_strategies.rs, plus the
--  state accessors of state.rs it consumes)
-- ======================================================================

/-- Modelled from the spec: the utility value type of §4.5 (a land's utility
is the fixed positive value 1; any other card contributes its cost's mana
value; otherwise 0) — the `utility_functions` module is not under `src/`.
All shipped utilities are non-negative integers. -/
abbrev Utility := Nat

/-- `itertools::unique_by` as used by `legal_land_drops`: keep the first
occurrence of each key, in order.  `seen` is the set of keys already
emitted. -/
def uniqueByKey (key : Card → String) : List Card → List String → List Card
  | [], _ => []
  | c :: rest, seen =>
    if key c ∈ seen then uniqueByKey key rest seen
    else c :: uniqueByKey key rest (key c :: seen)

/-- `State::legal_land_drops` (state.rs lines 168-177): one representative
per distinct name among the lands in hand, each wrapped as a `CardPlay` from
the hand with empty payment. -/
def State.legalLandDrops (env : CardEnv) (s : State) : List CardPlay :=
  (uniqueByKey (fun c => (env.data c).name)
      (s.hand.filter (fun c => decide ((env.data c).card_type = CardType.Land))) []).map
    (fun card => { card := card, zone := Zone.Hand, payment := ManaPool.empty })

/-- `State::legal_card_plays` (state.rs lines 153-166): every hand card with
a cost, then every command-zone card, payment filled in later. -/
def State.legalCardPlays (env : CardEnv) (s : State) : List CardPlay :=
  (s.hand.filter (fun c => (env.data c).cost.isSome)).map
    (fun card => { card := card, zone := Zone.Hand, payment := ManaPool.empty }) ++
  s.command_zone.map
    (fun card => { card := card, zone := Zone.CommandZone, payment := ManaPool.empty })

/-- `ManaSource::try_from` (src/src/game/mana/mana_source.rs lines 28-54):
view a permanent through its `core:Produces` values; `None` when the tag is
absent or its value list is empty.  The registry lookup is supplied by
`CardEnv.producesView`. -/
def ManaSource.tryFrom (env : CardEnv) (card : Card) : Option ManaSource :=
  match env.producesView card with
  | none => none
  | some produces =>
    if produces = [] then none else some { card := card, produces := produces }

/-- Modelled from the spec: the `State::available_mana` revision consumed by
`play_a_card` returns a `ManaPool` (the revision under `src/`, state.rs lines
192-198, returns only its scalar total): per §4.4/§4.5 it aggregates the
mana theoretically accessible from the battlefield's mana sources; each
source contributes its highest-mana-value tap-mode (the mode whose value
`ManaSource::highest_mana_value` reports). -/
def ManaSource.highestPool (src : ManaSource) : ManaPool :=
  match src.produces.foldl
      (fun best p =>
        match best with
        | none => some p
        | some b => if b.manaValue < p.manaValue then some p else some b) none with
  | none => ManaPool.empty
  | some p => p

/-- Modelled from the spec: see `ManaSource.highestPool`; sums the chosen
tap-modes over `state.mana_sources()` (state.rs lines 179-183). -/
def State.availableMana (env : CardEnv) (s : State) : ManaPool :=
  sumPools ((s.permanents.filterMap (ManaSource.tryFrom env)).map ManaSource.highestPool)

/-- `Soln` (card_play_strategies.rs lines 16-28). -/
structure Soln where
  card_plays : List CardPlay
  utility : Utility
deriving DecidableEq, Repr

/-- `Soln::replace_if_better` (card_play_strategies.rs lines 21-27): keep the
other solution when its utility is strictly greater. -/
def Soln.replaceIfBetter (self other : Soln) : Soln :=
  if self.utility < other.utility then other else self

/-- `naive_greedy` (card_play_strategies.rs lines 77-112): repeatedly sort
the candidates by utility ascending (stable), pop the best (the last), skip
it if it has no cost, no payment method, or the payment does not fit the
remaining mana; otherwise commit the play and deduct the payment. -/
def naiveGreedy (env : CardEnv) (utilityFn : Card → Utility)
    (plays : List CardPlay) (availableMana : ManaPool) (legalPlays : List CardPlay) :
    List CardPlay :=
  let sorted := legalPlays.mergeSort
    (fun a b => decide (utilityFn a.card ≤ utilityFn b.card))
  match hpop : sorted.getLast? with
  | none => plays
  | some candidate =>
    let rest := sorted.dropLast
    match (env.data candidate.card).cost with
    | none => naiveGreedy env utilityFn plays availableMana rest
    | some manaCost =>
      match (availableMana.paymentMethodsFor manaCost).head? with
      | none => naiveGreedy env utilityFn plays availableMana rest
      | some payment =>
        match availableMana.sub payment with
        | none => naiveGreedy env utilityFn plays availableMana rest
        | some remainingMana =>
          naiveGreedy env utilityFn
            (plays ++ [{ card := candidate.card, zone := candidate.zone,
                         payment := payment }])
            remainingMana rest
termination_by legalPlays.length
decreasing_by
  all_goals
    have hne : sorted = [] → False := by
      intro he
      rw [he] at hpop
      simp at hpop
    have hlen : sorted.length = legalPlays.length := List.length_mergeSort legalPlays
    have hpos : 0 < sorted.length := List.length_pos.mpr hne
    have hdl : sorted.dropLast.length = sorted.length - 1 := List.length_dropLast sorted
    simp_wf
    omega

/-- `play_a_card` (card_play_strategies.rs lines 65-75): run the naive-greedy
loop over the legal card plays with the available mana. -/
def playACard (env : CardEnv) (s : State) (utilityFn : Card → Utility) :
    List CardPlay :=
  naiveGreedy env utilityFn [] (s.availableMana env) (s.legalCardPlays env)

/-- Modelled from the spec: `State::forecasted`, the one-step lookahead state
of §4.5 ("form a one-step lookahead state (with the land played)"), is not
under `src/`; `State::with_having_played` (state.rs lines 107-112) is this
operation — clone the state and play the card. -/
def State.forecasted (env : CardEnv) (s : State) (cp : CardPlay) : State :=
  s.playCard env cp

/-- `play_a_land_and_a_card` (card_play_strategies.rs lines 33-63): for each
legal land drop, compose the land with the plays `play_a_card` finds on the
forecasted state, score the plan by the sum of utilities, and keep the best
plan; the initial solution is the empty plan with utility 0. -/
def playALandAndACard (env : CardEnv) (s : State) (utilityFn : Card → Utility) :
    List CardPlay :=
  let init : Soln := { card_plays := [], utility := 0 }
  let final := (s.legalLandDrops env).foldl
    (fun soln landDrop =>
      let cardPlays := landDrop :: playACard env (s.forecasted env landDrop) utilityFn
      let utility := (cardPlays.map (fun cp => utilityFn cp.card)).foldl (· + ·) 0
      soln.replaceIfBetter { card_plays := cardPlays, utility := utility })
    init
  final.card_plays

-- ======================================================================
--  C10: no land drop means no plays at all
-- ======================================================================

/-- **C10** — When the hand contains no Land card, `legal_land_drops` is
empty, the `for_each` over land drops never runs, and
`play_a_land_and_a_card` returns the empty plan — no non-land plays are
selected even when payable non-land candidates exist (card_play_strategies.rs
lines 33-63, state.rs lines 168-177). -/
theorem play_a_land_and_a_card_no_lands (env : CardEnv) (s : State)
    (utilityFn : Card → Utility)
    (h : ∀ c ∈ s.hand, (env.data c).card_type ≠ CardType.Land) :
    playALandAndACard env s utilityFn = [] := by
  have hfilter :
      s.hand.filter (fun c => decide ((env.data c).card_type = CardType.Land)) = [] := by
    rw [List.filter_eq_nil_iff]
    intro c hc
    simp [h c hc]
  have hldd : s.legalLandDrops env = [] := by
    unfold State.legalLandDrops
    rw [hfilter]
    rfl
  unfold playALandAndACard
  rw [hldd]
  rfl

/-- A registry for the C10 witness: handle 0 is a castable creature (`{1}`),
handle 1 a mana rock producing `{G}`. -/
def noLandEnv : CardEnv :=
  { data := fun c =>
      if c.idx = 0 then
        { name := "Bear", card_type := CardType.Creature,
          cost := some { colors := ManaPool.empty, generic := 1 } }
      else
        { name := "Rock", card_type := CardType.Artifact, cost := none }
    producesView := fun c => if c.idx = 1 then some [ManaPool.ofGreen 1] else none }

/-- A landless-hand state for the C10 witness: the hand holds the payable
creature, the battlefield the mana source that could pay for it. -/
def noLandState : State :=
  { turn := 2, draw_on_first_turn := true, num_mulligans_taken := 0,
    game_loss := false, turn_state := TurnState.new, max_land_drops_per_turn := 1,
    library := [], hand := [⟨0⟩], permanents := [⟨1⟩], graveyard := [],
    command_zone := [] }

/-- Witness for C10: the landless hand above, with a payable creature in hand
and a mana source in play, still yields the empty plan. -/
theorem play_a_land_and_a_card_no_lands_witness :
    (∀ c ∈ noLandState.hand, (noLandEnv.data c).card_type ≠ CardType.Land) ∧
    playALandAndACard noLandEnv noLandState (fun _ => 1) = [] :=
  ⟨by decide, play_a_land_and_a_card_no_lands noLandEnv noLandState (fun _ => 1)
    (by decide)⟩

-- ======================================================================
--  Mana parsing and printing (src/src/game/mana/cost.rs lines 97-137 and
--  167-185, src/src/game/mana/pool.rs lines 46-51, 129-133 and 318-334).
--  Strings are modelled as `List Char`.
-- ======================================================================

/-- `ManaParseError` (src/src/game/mana.rs error taxonomy); payloads (the
regex, the offending string, the integer-parse error) are omitted as no claim
inspects them. -/
inductive ManaParseError where
  | InvalidManaType
  | FailedToParseGenericCost
  | DidNotMatchRegex
  | GenericCostInManaPool
deriving DecidableEq, Repr

/-- The character class `[WUBRGC0-9]` of the mana grammar. -/
def isManaChar (ch : Char) : Bool :=
  ['W', 'U', 'B', 'R', 'G', 'C'].contains ch || ch.isDigit

/-- The whole-string regex `^(\{[WUBRGC0-9]+\})*$` (cost.rs lines 99-106)
together with the token extraction of `captures_iter` (cost.rs line 110),
as one left-to-right scan: `none` when the string does not match, otherwise
the bracket-token contents in order.  The first component is the token being
accumulated (in reverse), `none` when outside braces. -/
def tokenizeAux : Option (List Char) → List Char → Option (List (List Char))
  | none, [] => some []
  | none, ch :: rest =>
    if ch = '{' then tokenizeAux (some []) rest else none
  | some _, [] => none
  | some tok, ch :: rest =>
    if ch = '}' then
      if tok = [] then none
      else (tokenizeAux none rest).map (fun ts => tok.reverse :: ts)
    else if isManaChar ch then tokenizeAux (some (ch :: tok)) rest
    else none

/-- Tokenize a mana string: the brace-token contents, or `none` when the
string does not match the grammar. -/
def tokenize (source : List Char) : Option (List (List Char)) :=
  tokenizeAux none source

/-- The numeric value of a decimal digit character. -/
def digitVal (ch : Char) : Nat := ch.toNat - '0'.toNat

/-- The value of a decimal digit string (`str::parse` on an all-digit
slice, before the `u8` range check). -/
def digitsToNat (ds : List Char) : Nat :=
  ds.foldl (fun acc ch => 10 * acc + digitVal ch) 0

/-- One brace token folded into the cost being built (the match arms of
`ManaCost::try_parse`, cost.rs lines 112-133): a single color letter
increments its pip; an all-digit token parses as a `u8` (value `≤ 255`,
otherwise `FailedToParseGenericCost`) added to the generic count; anything
else is `InvalidManaType`. -/
def parseTokenCost (mana : ManaCost) (tok : List Char) : Except ManaParseError ManaCost :=
  if tok = ['W'] then
    Except.ok { mana with colors := { mana.colors with white := mana.colors.white + 1 } }
  else if tok = ['U'] then
    Except.ok { mana with colors := { mana.colors with blue := mana.colors.blue + 1 } }
  else if tok = ['B'] then
    Except.ok { mana with colors := { mana.colors with black := mana.colors.black + 1 } }
  else if tok = ['R'] then
    Except.ok { mana with colors := { mana.colors with red := mana.colors.red + 1 } }
  else if tok = ['G'] then
    Except.ok { mana with colors := { mana.colors with green := mana.colors.green + 1 } }
  else if tok = ['C'] then
    Except.ok { mana with colors := { mana.colors with colorless := mana.colors.colorless + 1 } }
  else if tok.all Char.isDigit then
    if digitsToNat tok ≤ 255 then
      Except.ok { mana with generic := mana.generic + digitsToNat tok }
    else Except.error ManaParseError.FailedToParseGenericCost
  else Except.error ManaParseError.InvalidManaType

/-- The token loop of `ManaCost::try_parse` (cost.rs lines 110-134). -/
def parseTokens (mana : ManaCost) : List (List Char) → Except ManaParseError ManaCost
  | [] => Except.ok mana
  | tok :: rest =>
    match parseTokenCost mana tok with
    | Except.ok m => parseTokens m rest
    | Except.error e => Except.error e

/-- `ManaCost::try_parse` (cost.rs lines 97-137). -/
def ManaCost.tryParse (source : List Char) : Except ManaParseError ManaCost :=
  match tokenize source with
  | none => Except.error ManaParseError.DidNotMatchRegex
  | some toks => parseTokens ManaCost.empty toks

/-- `ManaPool::try_parse` (pool.rs lines 129-133) composed with
`ManaPool::try_from` (pool.rs lines 46-51): parse as a cost, then reject a
positive generic component. -/
def ManaPool.tryParse (source : List Char) : Except ManaParseError ManaPool :=
  match ManaCost.tryParse source with
  | Except.error e => Except.error e
  | Except.ok cost =>
    if 0 < cost.generic then Except.error ManaParseError.GenericCostInManaPool
    else Except.ok cost.colors

/-- The decimal digit character for `n % 10`. -/
def digitChar (n : Nat) : Char :=
  match n with
  | 0 => '0' | 1 => '1' | 2 => '2' | 3 => '3' | 4 => '4'
  | 5 => '5' | 6 => '6' | 7 => '7' | 8 => '8' | _ => '9'

/-- Decimal digits of a positive number, least significant first. -/
def natDigitsAux (n : Nat) : List Char :=
  if h : n = 0 then []
  else digitChar (n % 10) :: natDigitsAux (n / 10)
termination_by n
decreasing_by exact Nat.div_lt_self (Nat.pos_of_ne_zero h) (by omega)

/-- The decimal rendering of a natural number (`u8`'s `Display`). -/
def natDigits (n : Nat) : List Char :=
  if n = 0 then ['0'] else (natDigitsAux n).reverse

/-- Wrap each token in braces and concatenate (the `write!(f, "{{..}}")`
calls of the `Display` impls). -/
def renderTokens (ts : List (List Char)) : List Char :=
  (ts.map (fun t => '{' :: (t ++ ['}']))).flatten

/-- The letter written for one pip of each mana type. -/
def pipChar : ManaType → Char
  | ManaType.White => 'W'
  | ManaType.Blue => 'U'
  | ManaType.Black => 'B'
  | ManaType.Red => 'R'
  | ManaType.Green => 'G'
  | ManaType.Colorless => 'C'

/-- The pip tokens a pool prints, in declared order W,U,B,R,G,C (one token
per pip). -/
def pipTokens (p : ManaPool) : List (List Char) :=
  List.replicate p.white [pipChar ManaType.White] ++
  List.replicate p.blue [pipChar ManaType.Blue] ++
  List.replicate p.black [pipChar ManaType.Black] ++
  List.replicate p.red [pipChar ManaType.Red] ++
  List.replicate p.green [pipChar ManaType.Green] ++
  List.replicate p.colorless [pipChar ManaType.Colorless]

/-- `impl Display for ManaPool` (pool.rs lines 318-334): the pips in order,
then `{0}` when the total value is zero. -/
def ManaPool.format (p : ManaPool) : List Char :=
  renderTokens (pipTokens p ++ if p.manaValue = 0 then [['0']] else [])

/-- `impl Display for ManaCost` (cost.rs lines 167-185): the generic count in
decimal first when positive, then the pips, then `{0}` when the total value
is zero. -/
def ManaCost.format (c : ManaCost) : List Char :=
  renderTokens ((if 0 < c.generic then [natDigits c.generic] else []) ++
    pipTokens c.colors ++ if c.manaValue = 0 then [['0']] else [])

-- ======================================================================
--  C5 lemmas: tokenizer round trip
-- ======================================================================

theorem isManaChar_ne_rbrace {ch : Char} (h : isManaChar ch = true) : ¬(ch = '}') := by
  intro hc
  subst hc
  exact absurd h (by decide)

theorem tokenizeAux_consume :
    ∀ (t : List Char), (∀ ch ∈ t, isManaChar ch = true) →
    ∀ (acc rest : List Char),
      tokenizeAux (some acc) (t ++ '}' :: rest) =
        (if t.reverse ++ acc = [] then none
         else (tokenizeAux none rest).map (fun ts => (t.reverse ++ acc).reverse :: ts)) := by
  intro t
  induction t with
  | nil =>
    intro _ acc rest
    simp only [List.nil_append, List.reverse_nil]
    simp [tokenizeAux]
  | cons ch t' ih =>
    intro hchars acc rest
    have hch : isManaChar ch = true := hchars ch (List.mem_cons_self _ _)
    have hne : ¬(ch = '}') := isManaChar_ne_rbrace hch
    simp only [List.cons_append]
    rw [show tokenizeAux (some acc) (ch :: (t' ++ '}' :: rest)) =
          (if ch = '}' then
            if acc = [] then none
            else (tokenizeAux none (t' ++ '}' :: rest)).map (fun ts => acc.reverse :: ts)
          else if isManaChar ch then tokenizeAux (some (ch :: acc)) (t' ++ '}' :: rest)
          else none) from rfl]
    rw [if_neg hne, if_pos hch]
    rw [ih (fun c hc => hchars c (List.mem_cons_of_mem _ hc)) (ch :: acc) rest]
    have heq : t'.reverse ++ (ch :: acc) = (ch :: t').reverse ++ acc := by
      simp
    rw [heq]

theorem tokenize_render :
    ∀ (ts : List (List Char)),
      (∀ t ∈ ts, t ≠ [] ∧ ∀ ch ∈ t, isManaChar ch = true) →
      tokenize (renderTokens ts) = some ts := by
  intro ts
  induction ts with
  | nil => intro _; rfl
  | cons t ts' ih =>
    intro h
    obtain ⟨hne, hchars⟩ := h t (List.mem_cons_self _ _)
    unfold tokenize renderTokens
    simp only [List.map_cons, List.flatten_cons]
    have hshape :
        ('{' :: (t ++ ['}'])) ++ (ts'.map (fun t => '{' :: (t ++ ['}']))).flatten
          = '{' :: (t ++ '}' :: (ts'.map (fun t => '{' :: (t ++ ['}']))).flatten) := by
      simp
    rw [hshape]
    rw [show tokenizeAux none
          ('{' :: (t ++ '}' :: (ts'.map (fun t => '{' :: (t ++ ['}']))).flatten))
        = tokenizeAux (some [])
            (t ++ '}' :: (ts'.map (fun t => '{' :: (t ++ ['}']))).flatten) from rfl]
    rw [tokenizeAux_consume t hchars []]
    rw [if_neg (by simpa using hne)]
    have hrest := ih (fun u hu => h u (List.mem_cons_of_mem _ hu))
    unfold tokenize renderTokens at hrest
    rw [hrest]
    simp

-- ======================================================================
--  C5 lemmas: decimal digits
-- ======================================================================

theorem digitVal_digitChar : ∀ d < 10, digitVal (digitChar d) = d := by decide

theorem isDigit_digitChar : ∀ d < 10, (digitChar d).isDigit = true := by decide

theorem digitsToNat_append (ds : List Char) (c : Char) :
    digitsToNat (ds ++ [c]) = 10 * digitsToNat ds + digitVal c := by
  unfold digitsToNat
  rw [List.foldl_append]
  rfl

theorem natDigitsAux_spec :
    ∀ n : Nat, digitsToNat (natDigitsAux n).reverse = n ∧
      ∀ ch ∈ natDigitsAux n, ch.isDigit = true := by
  intro n
  induction n using Nat.strong_induction_on with
  | _ n ih =>
    rw [natDigitsAux.eq_def]
    split
    · rename_i h0
      subst h0
      simp [digitsToNat]
    · rename_i h0
      have hdiv : n / 10 < n := Nat.div_lt_self (Nat.pos_of_ne_zero h0) (by omega)
      obtain ⟨ih1, ih2⟩ := ih (n / 10) hdiv
      constructor
      · simp only [List.reverse_cons]
        rw [digitsToNat_append, ih1, digitVal_digitChar (n % 10) (by omega)]
        omega
      · intro ch hch
        rcases List.mem_cons.mp hch with rfl | hch
        · exact isDigit_digitChar (n % 10) (by omega)
        · exact ih2 ch hch

theorem digitsToNat_natDigits (n : Nat) : digitsToNat (natDigits n) = n := by
  unfold natDigits
  split
  · rename_i h0
    subst h0
    rfl
  · exact (natDigitsAux_spec n).1

theorem natDigits_digits (n : Nat) : ∀ ch ∈ natDigits n, ch.isDigit = true := by
  unfold natDigits
  split
  · intro ch hch
    simp at hch
    subst hch
    decide
  · intro ch hch
    exact (natDigitsAux_spec n).2 ch (List.mem_reverse.mp hch)

theorem natDigits_ne_nil (n : Nat) : natDigits n ≠ [] := by
  unfold natDigits
  split
  · simp
  · rename_i h0
    rw [natDigitsAux.eq_def]
    rw [dif_neg h0]
    simp

-- ======================================================================
--  C5 lemmas: the token loop
-- ======================================================================

theorem parseTokens_cons_ok {m m' : ManaCost} {tok : List Char}
    {rest : List (List Char)} (h : parseTokenCost m tok = Except.ok m') :
    parseTokens m (tok :: rest) = parseTokens m' rest := by
  rw [show parseTokens m (tok :: rest) =
        (match parseTokenCost m tok with
         | Except.ok m2 => parseTokens m2 rest
         | Except.error e => Except.error e) from rfl]
  rw [h]

/-- One pip added at a given type with the given multiplicity. -/
def ManaCost.bumpColor (c : ManaCost) (t : ManaType) (n : Nat) : ManaCost :=
  { c with colors := c.colors.set t (c.colors.get t + n) }

theorem ManaPool.set_get_self (p : ManaPool) (t : ManaType) : p.set t (p.get t) = p := by
  cases t <;> rfl

theorem ManaPool.set_set (p : ManaPool) (t : ManaType) (a b : Nat) :
    (p.set t a).set t b = p.set t b := by
  cases t <;> rfl

theorem ManaCost.bumpColor_zero (c : ManaCost) (t : ManaType) : c.bumpColor t 0 = c := by
  unfold ManaCost.bumpColor
  rw [Nat.add_zero, ManaPool.set_get_self]

theorem ManaCost.bumpColor_one_bump (c : ManaCost) (t : ManaType) (n : Nat) :
    (c.bumpColor t 1).bumpColor t n = c.bumpColor t (n + 1) := by
  unfold ManaCost.bumpColor
  simp only [ManaPool.get_set_self, ManaPool.set_set]
  have hval : c.colors.get t + 1 + n = c.colors.get t + (n + 1) := by omega
  rw [hval]

theorem parseTokenCost_pip (m : ManaCost) (t : ManaType) :
    parseTokenCost m [pipChar t] = Except.ok (m.bumpColor t 1) := by
  cases t <;> rfl

theorem parseTokens_replicate_pip (t : ManaType) :
    ∀ (n : Nat) (m : ManaCost) (rest : List (List Char)),
      parseTokens m (List.replicate n [pipChar t] ++ rest) =
        parseTokens (m.bumpColor t n) rest := by
  intro n
  induction n with
  | zero =>
    intro m rest
    simp only [List.replicate_zero, List.nil_append]
    rw [ManaCost.bumpColor_zero]
  | succ n ih =>
    intro m rest
    simp only [List.replicate_succ, List.cons_append]
    rw [parseTokens_cons_ok (parseTokenCost_pip m t)]
    rw [ih]
    rw [ManaCost.bumpColor_one_bump]

theorem parseTokens_pipTokens (p : ManaPool) (m : ManaCost) (rest : List (List Char)) :
    parseTokens m (pipTokens p ++ rest) =
      parseTokens { m with colors := m.colors.add p } rest := by
  unfold pipTokens
  rw [List.append_assoc, List.append_assoc, List.append_assoc, List.append_assoc,
      List.append_assoc]
  rw [parseTokens_replicate_pip, parseTokens_replicate_pip, parseTokens_replicate_pip,
      parseTokens_replicate_pip, parseTokens_replicate_pip, parseTokens_replicate_pip]
  rfl

theorem parseTokenCost_digits (m : ManaCost) (tok : List Char) (hne : tok ≠ [])
    (hd : ∀ ch ∈ tok, ch.isDigit = true) (hv : digitsToNat tok ≤ 255) :
    parseTokenCost m tok = Except.ok { m with generic := m.generic + digitsToNat tok } := by
  have hW : ¬(tok = ['W']) := by
    intro h
    rw [h] at hd
    exact absurd (hd 'W' (by simp)) (by decide)
  have hU : ¬(tok = ['U']) := by
    intro h
    rw [h] at hd
    exact absurd (hd 'U' (by simp)) (by decide)
  have hB : ¬(tok = ['B']) := by
    intro h
    rw [h] at hd
    exact absurd (hd 'B' (by simp)) (by decide)
  have hR : ¬(tok = ['R']) := by
    intro h
    rw [h] at hd
    exact absurd (hd 'R' (by simp)) (by decide)
  have hG : ¬(tok = ['G']) := by
    intro h
    rw [h] at hd
    exact absurd (hd 'G' (by simp)) (by decide)
  have hC : ¬(tok = ['C']) := by
    intro h
    rw [h] at hd
    exact absurd (hd 'C' (by simp)) (by decide)
  unfold parseTokenCost
  rw [if_neg hW, if_neg hU, if_neg hB, if_neg hR, if_neg hG, if_neg hC,
      if_pos (List.all_eq_true.mpr hd), if_pos hv]

-- ======================================================================
--  C5 lemmas: well-formed tokens of the Display output
-- ======================================================================

theorem mem_pipTokens {p : ManaPool} {t : List Char} (h : t ∈ pipTokens p) :
    ∃ ty : ManaType, t = [pipChar ty] := by
  unfold pipTokens at h
  simp only [List.mem_append] at h
  rcases h with ((((h | h) | h) | h) | h) | h <;>
    exact ⟨_, List.eq_of_mem_replicate h⟩

theorem isManaChar_pipChar (ty : ManaType) : isManaChar (pipChar ty) = true := by
  cases ty <;> decide

theorem isManaChar_of_isDigit {ch : Char} (h : ch.isDigit = true) :
    isManaChar ch = true := by
  unfold isManaChar
  rw [h]
  simp

theorem formatCost_tokens_ok (c : ManaCost) :
    ∀ t ∈ ((if 0 < c.generic then [natDigits c.generic] else []) ++
        pipTokens c.colors ++ if c.manaValue = 0 then [['0']] else []),
      t ≠ [] ∧ ∀ ch ∈ t, isManaChar ch = true := by
  intro t ht
  rw [List.mem_append, List.mem_append] at ht
  rcases ht with (ht | ht) | ht
  · have : t = natDigits c.generic := by
      split at ht <;> simp_all
    subst this
    exact ⟨natDigits_ne_nil _,
      fun ch hch => isManaChar_of_isDigit (natDigits_digits _ ch hch)⟩
  · obtain ⟨ty, rfl⟩ := mem_pipTokens ht
    exact ⟨by simp, fun ch hch => by
      rcases List.mem_singleton.mp hch with rfl
      exact isManaChar_pipChar ty⟩
  · have : t = ['0'] := by
      split at ht <;> simp_all
    subst this
    exact ⟨by simp, by decide⟩

-- ======================================================================
--  C5: the round-trip theorems
-- ======================================================================

theorem ManaPool.empty_add (p : ManaPool) : ManaPool.empty.add p = p := by
  unfold ManaPool.empty ManaPool.add
  ext <;> simp

theorem cost_round_trip (c : ManaCost) (hg : c.generic ≤ 255) :
    ManaCost.tryParse (ManaCost.format c) = Except.ok c := by
  unfold ManaCost.tryParse ManaCost.format
  rw [tokenize_render _ (formatCost_tokens_ok c)]
  show parseTokens ManaCost.empty _ = Except.ok c
  by_cases hgen : 0 < c.generic
  · have hmv : ¬(c.manaValue = 0) := by
      unfold ManaCost.manaValue
      omega
    rw [if_pos hgen, if_neg hmv]
    rw [show ([natDigits c.generic] ++ pipTokens c.colors ++ ([] : List (List Char)))
          = natDigits c.generic :: (pipTokens c.colors ++ []) from by simp]
    rw [parseTokens_cons_ok
      (parseTokenCost_digits ManaCost.empty (natDigits c.generic) (natDigits_ne_nil _)
        (natDigits_digits _) (by rw [digitsToNat_natDigits]; exact hg))]
    rw [parseTokens_pipTokens]
    unfold parseTokens
    congr 1
    ext <;> simp [ManaCost.empty, ManaPool.empty_add, digitsToNat_natDigits]
  · have hgen0 : c.generic = 0 := by omega
    by_cases hmv : c.manaValue = 0
    · have hcol : c.colors.manaValue = 0 := by
        unfold ManaCost.manaValue at hmv
        omega
      have hc : c = ManaCost.empty := by
        have hp := ManaPool.manaValue_eq_zero hcol
        unfold ManaCost.empty
        ext <;> simp [hp, hgen0]
      rw [if_neg hgen, if_pos hmv, hc]
      rw [show pipTokens ManaCost.empty.colors = ([] : List (List Char)) from rfl]
      rfl
    · rw [if_neg hgen, if_neg hmv]
      rw [List.nil_append]
      rw [parseTokens_pipTokens]
      unfold parseTokens
      congr 1
      ext <;> simp [ManaCost.empty, ManaPool.empty_add, hgen0]

theorem pool_round_trip (p : ManaPool) :
    ManaPool.tryParse (ManaPool.format p) = Except.ok p := by
  unfold ManaPool.tryParse
  rw [show ManaPool.format p = ManaCost.format { colors := p, generic := 0 } from rfl]
  rw [cost_round_trip { colors := p, generic := 0 } (by simp)]
  rfl

/-- **C5** — Mana parsing round-trip (cost.rs lines 97-137 and 167-185,
pool.rs lines 46-51, 129-133 and 318-334): every pool and every cost (whose
generic count is `u8`-representable, `≤ 255`) survives format-then-parse; the
empty pool formats as `"{0}"`, and both `"{0}"` and `""` parse to the empty
pool. -/
theorem mana_parse_round_trip :
    (∀ p : ManaPool, ManaPool.tryParse (ManaPool.format p) = Except.ok p) ∧
    (∀ c : ManaCost, c.generic ≤ 255 →
      ManaCost.tryParse (ManaCost.format c) = Except.ok c) ∧
    ManaPool.format ManaPool.empty = ['{', '0', '}'] ∧
    ManaPool.tryParse ['{', '0', '}'] = Except.ok ManaPool.empty ∧
    ManaPool.tryParse [] = Except.ok ManaPool.empty :=
  ⟨pool_round_trip, cost_round_trip, rfl, rfl, rfl⟩

/-- Witness for C5 at the cost `{2}{G}` (generic count within the `u8`
bound). -/
theorem mana_parse_round_trip_witness :
    (2 : Nat) ≤ 255 ∧
    ManaCost.tryParse (ManaCost.format { colors := ManaPool.ofGreen 1, generic := 2 }) =
      Except.ok { colors := ManaPool.ofGreen 1, generic := 2 } :=
  ⟨by decide,
   mana_parse_round_trip.2.1 { colors := ManaPool.ofGreen 1, generic := 2 } (by decide)⟩

end DeckOptim
